import Mathlib

/-!
# ObjectPool.h : a shallow embedding and its properties

The C++ class template `ObjectPool<T>` keeps a `std::vector<T*> pool_` of idle
instances.  `acquire()` pops the back of that vector (or runs `new T()` when it
is empty) and wraps the pointer in a `std::unique_ptr<T, PoolDeleter>` whose
deleter calls `release` on the issuing pool; `release` pushes the pointer back;
the destructor deletes whatever is idle.

Embedding.

* A `T*` is an address (`Addr`), an `ObjectPool<T>*` is a `PoolRef`.
* `World T` is the part of the machine state the class can see or change: the
  `pool_` member of every pool object, the contents of the free store, and two
  append-only logs that record which new-expressions completed and which
  addresses were passed to `delete`.  The logs are observations only; no
  operation reads them.
* A `std::vector` is a `List` whose last element is `back()`.
* A call that may throw returns `Except ε α × World T`: the state survives the
  exception, as it does in C++.
* The outcome of evaluating `T()` is an argument of the caller (`ctor`): either
  the freshly built value or the exception the constructor threw.

Lifetime of the pool object itself is not tracked: using a pool after its
destructor ran is undefined behaviour in the source and has no meaning here.
-/

namespace ObjectPool

/-- A `T*` that points to an instance: the address of the instance. -/
abbrev Addr := Nat

/-- An `ObjectPool<T>*`: the address of a pool object. -/
abbrev PoolRef := Nat

/-- The state visible to `ObjectPool<T>`. -/
structure World (T : Type) where
  /-- The member `std::vector<T*> pool_` of the pool at each address; the last
  element of the list is `back()`. -/
  pool_ : PoolRef → List Addr
  /-- The free store: the value of the instance living at each address. -/
  mem : Addr → Option T
  /-- The address the next successful new-expression returns. -/
  brk : Addr
  /-- Log of completed `new T()` expressions: the pool whose `acquire` ran it and
  the address it returned, oldest first. -/
  news : List (PoolRef × Addr)
  /-- Log of the addresses passed to `delete`, oldest first. -/
  deletes : List Addr

variable {ε T : Type}

/-- The expression `new T()` evaluated inside a member of the pool `owner`.
When the constructor throws, the storage is given back and nothing changed;
otherwise the instance lives at a fresh address. -/
def opNew (owner : PoolRef) (ctor : Except ε T) (w : World T) : Except ε Addr × World T :=
  match ctor with
  | .error e => (.error e, w)
  | .ok v =>
    (.ok w.brk,
      { w with
        mem := Function.update w.mem w.brk (some v)
        brk := w.brk + 1
        news := w.news ++ [(owner, w.brk)] })

/-- The statement `delete obj`. -/
def opDelete (obj : Addr) (w : World T) : World T :=
  { w with
    mem := Function.update w.mem obj none
    deletes := w.deletes ++ [obj] }

/-- The struct `PoolDeleter`: one member, `ObjectPool<T>* pool`. -/
structure PoolDeleter where
  pool : PoolRef
deriving DecidableEq, Repr

/-- The type `Ptr = std::unique_ptr<T, PoolDeleter>`: the stored pointer
(`none` is `nullptr`) and the stored deleter. -/
structure Ptr where
  ptr : Option Addr
  deleter : PoolDeleter
deriving DecidableEq, Repr

/-- The member `void release(T* obj)`: `pool_.push_back(obj)`. -/
def release (this : PoolRef) (obj : Addr) (w : World T) : World T :=
  { w with pool_ := Function.update w.pool_ this (w.pool_ this ++ [obj]) }

/-- The member `Ptr acquire()`. -/
def acquire (this : PoolRef) (ctor : Except ε T) (w : World T) : Except ε Ptr × World T :=
  if h : w.pool_ this ≠ [] then
    let obj := (w.pool_ this).getLast h
    let w1 := { w with pool_ := Function.update w.pool_ this (w.pool_ this).dropLast }
    (.ok ⟨some obj, ⟨this⟩⟩, w1)
  else
    match opNew this ctor w with
    | (.error e, w1) => (.error e, w1)
    | (.ok newObj, w1) => (.ok ⟨some newObj, ⟨this⟩⟩, w1)

/-- The body of `~ObjectPool()`: `for (T* obj : pool_) delete obj;`. -/
def destroy (this : PoolRef) (w : World T) : World T :=
  (w.pool_ this).foldl (fun acc obj => opDelete obj acc) w

/-- The call operator of `PoolDeleter`: `pool->release(ptr)`. -/
def PoolDeleter.call (d : PoolDeleter) (ptr : Addr) (w : World T) : World T :=
  release d.pool ptr w

/-- The destructor of `std::unique_ptr`: the deleter runs on the stored pointer
unless that pointer is null. -/
def Ptr.destruct (h : Ptr) (w : World T) : World T :=
  match h.ptr with
  | none => w
  | some p => h.deleter.call p w

/-- The member `reset(p)` of `std::unique_ptr`: store `p`, then run the deleter
on the pointer stored before unless that one was null. -/
def Ptr.reset (h : Ptr) (p : Option Addr) (w : World T) : Ptr × World T :=
  match h.ptr with
  | none => ({ h with ptr := p }, w)
  | some old => ({ h with ptr := p }, h.deleter.call old w)

/-- Move assignment `h = std::move(r)` of `std::unique_ptr`:
`reset(r.release())`, then the deleter of `r` is taken over.  The result is
the new `h`, the moved-from `r`, and the state. -/
def Ptr.moveAssign (h r : Ptr) (w : World T) : Ptr × Ptr × World T :=
  let (h1, w1) := h.reset r.ptr w
  ({ h1 with deleter := r.deleter }, { r with ptr := none }, w1)

/-- Assignment through a handle, `*h = v`: the caller overwrites the instance. -/
def Ptr.write (h : Ptr) (v : T) (w : World T) : World T :=
  match h.ptr with
  | none => w
  | some p => { w with mem := Function.update w.mem p (some v) }

/-- The addresses returned by the new-expressions that `acquire` ran on the
pool `this`, oldest first: the instances this pool constructed. -/
def constructedBy (this : PoolRef) (w : World T) : List Addr :=
  (w.news.filter (fun e => e.1 == this)).map Prod.snd

/-- A run of `release(x)` for each `x` of `xs`, in that order. -/
def releaseAll (this : PoolRef) (xs : List Addr) (w : World T) : World T :=
  xs.foldl (fun acc x => release this x acc) w

/-- One call of `acquire()` per entry of `ctors`, in that order; the entry is
the outcome `T()` would have if that call reached the new-expression.  The
result lists what each call returned. -/
def acquireMany (this : PoolRef) : List (Except ε T) → World T → List (Except ε Ptr) × World T
  | [], w => ([], w)
  | c :: cs, w =>
    let r := acquire this c w
    let rs := acquireMany this cs r.2
    (r.1 :: rs.1, rs.2)

/-- The instances wrapped by the handles that a run of calls returned, in the
order of the calls; a call that threw returned none. -/
def handedOut (rs : List (Except ε Ptr)) : List Addr :=
  rs.filterMap (fun r =>
    match r with
    | .ok h => h.ptr
    | .error _ => none)

/-- A state in which nothing was ever allocated and every pool is empty. -/
def World.start : World T where
  pool_ := fun _ => []
  mem := fun _ => none
  brk := 0
  news := []
  deletes := []

/-- The pool at `this` is freshly constructed (`ObjectPool() = default`): its
vector is empty and it has run no new-expression yet. -/
def Fresh (this : PoolRef) (w : World T) : Prop :=
  w.pool_ this = [] ∧ constructedBy this w = []

/-- Calling code that works with the pool at one address: the state, the
handles it currently holds, and how many calls of `acquire` returned a handle
and how many calls of `release` its handles made so far. -/
structure Client (T : Type) where
  world : World T
  live : List Ptr
  acquired : Nat
  released : Nat

/-- What calling code does with the pool: call `acquire()` and keep the handle
(`ctor` is the outcome `T()` would have), or let the handle it holds at
position `i` go out of scope. -/
inductive Op (ε T : Type) where
  | acquire (ctor : Except ε T)
  | drop (i : Nat)

/-- One operation of the calling code.  An exception thrown by `acquire()` is
caught and the code goes on; dropping a handle that is not held does nothing. -/
def Client.step (this : PoolRef) (c : Client T) : Op ε T → Client T
  | .acquire ctor =>
    match acquire this ctor c.world with
    | (.ok h, w1) =>
      { world := w1, live := c.live ++ [h], acquired := c.acquired + 1, released := c.released }
    | (.error _, w1) => { c with world := w1 }
  | .drop i =>
    match c.live[i]? with
    | none => c
    | some h =>
      { world := h.destruct c.world
        live := c.live.eraseIdx i
        acquired := c.acquired
        released := c.released + (if h.ptr.isSome then 1 else 0) }

/-- A sequence of operations of the calling code. -/
def Client.run (this : PoolRef) (c : Client T) (ops : List (Op ε T)) : Client T :=
  ops.foldl (Client.step this) c

/-- Calling code that holds no handle and made no call yet. -/
def Client.fresh (w : World T) : Client T :=
  { world := w, live := [], acquired := 0, released := 0 }

/-- The instances that are checked out: those wrapped by a handle that the
calling code holds. -/
def Client.checkedOut (c : Client T) : List Addr :=
  c.live.filterMap Ptr.ptr

/-- What holds of calling code that started on a freshly constructed pool:
the idle collection together with the checked-out instances is a rearrangement
of the instances the pool constructed; those all lie below the next fresh
address and are pairwise distinct; every handle held is non-null and bound to
the pool; and the calls made so far balance with the handles held. -/
structure Client.Inv (this : PoolRef) (c : Client T) : Prop where
  perm : (c.world.pool_ this ++ c.checkedOut).Perm (constructedBy this c.world)
  lt_brk : ∀ a ∈ constructedBy this c.world, a < c.world.brk
  nodup : (constructedBy this c.world).Nodup
  bound : ∀ h ∈ c.live, ∃ a, h = ⟨some a, ⟨this⟩⟩
  count : c.acquired = c.released + c.live.length

/-- The largest number of instances that are checked out at one time while the
calling code `c` runs `ops`: at the start, and after each operation. -/
def Client.peak (this : PoolRef) (c : Client T) : List (Op ε T) → Nat
  | [] => c.checkedOut.length
  | op :: ops => max c.checkedOut.length (Client.peak this (c.step this op) ops)

/-! ## Basic facts about the operations -/

@[simp] theorem release_pool_self (this : PoolRef) (x : Addr) (w : World T) :
    (release this x w).pool_ this = w.pool_ this ++ [x] := by
  simp [release]

theorem release_pool_other {this q : PoolRef} (hq : q ≠ this) (x : Addr) (w : World T) :
    (release this x w).pool_ q = w.pool_ q := by
  simp [release, Function.update_noteq hq]

@[simp] theorem release_mem (this : PoolRef) (x : Addr) (w : World T) :
    (release this x w).mem = w.mem := rfl

@[simp] theorem release_brk (this : PoolRef) (x : Addr) (w : World T) :
    (release this x w).brk = w.brk := rfl

@[simp] theorem release_news (this : PoolRef) (x : Addr) (w : World T) :
    (release this x w).news = w.news := rfl

@[simp] theorem release_deletes (this : PoolRef) (x : Addr) (w : World T) :
    (release this x w).deletes = w.deletes := rfl

/-- On a pool whose vector is `l ++ [x]`, `acquire()` hands out `x` and leaves
`l`; nothing else changes and `T()` is not evaluated. -/
theorem acquire_of_pool_eq_append (this : PoolRef) (ctor : Except ε T) (w : World T)
    (l : List Addr) (x : Addr) (hl : w.pool_ this = l ++ [x]) :
    acquire this ctor w =
      (.ok ⟨some x, ⟨this⟩⟩, { w with pool_ := Function.update w.pool_ this l }) := by
  have hne : w.pool_ this ≠ [] := by simp [hl]
  unfold acquire
  rw [dif_pos hne]
  simp [hl]

/-- On a pool whose vector is empty, `acquire()` is the new-expression. -/
theorem acquire_of_pool_eq_nil (this : PoolRef) (ctor : Except ε T) (w : World T)
    (hl : w.pool_ this = []) :
    acquire this ctor w =
      match opNew this ctor w with
      | (.error e, w1) => (.error e, w1)
      | (.ok newObj, w1) => (.ok ⟨some newObj, ⟨this⟩⟩, w1) := by
  unfold acquire
  rw [dif_neg (by simp [hl])]

/-- Releasing and acquiring again gives the state back. -/
theorem acquire_release (this : PoolRef) (ctor : Except ε T) (w : World T) (x : Addr) :
    acquire this ctor (release this x w) = (.ok ⟨some x, ⟨this⟩⟩, w) := by
  rw [acquire_of_pool_eq_append this ctor (release this x w) (w.pool_ this) x (by simp)]
  simp [release]

/-- The vector after a run of releases. -/
theorem releaseAll_append_singleton (this : PoolRef) (xs : List Addr) (x : Addr) (w : World T) :
    releaseAll this (xs ++ [x]) w = release this x (releaseAll this xs w) := by
  simp [releaseAll, List.foldl_append]

/-- On an empty pool, `acquire()` with a constructor that succeeds. -/
theorem acquire_of_pool_eq_nil_ok (this : PoolRef) (v : T) (w : World T)
    (hl : w.pool_ this = []) :
    acquire this (.ok v : Except ε T) w =
      (.ok ⟨some w.brk, ⟨this⟩⟩,
        { w with
          mem := Function.update w.mem w.brk (some v)
          brk := w.brk + 1
          news := w.news ++ [(this, w.brk)] }) := by
  rw [acquire_of_pool_eq_nil this _ w hl]
  rfl

/-- On an empty pool, `acquire()` with a constructor that throws. -/
theorem acquire_of_pool_eq_nil_error (this : PoolRef) (e : ε) (w : World T)
    (hl : w.pool_ this = []) :
    acquire this (.error e : Except ε T) w = (.error e, w) := by
  rw [acquire_of_pool_eq_nil this _ w hl]
  rfl

/-- Acquiring from an empty pool with constructors that all succeed: the calls
return consecutive fresh addresses, the pool stays empty, and each call adds
one entry to the log of new-expressions. -/
theorem acquireMany_of_pool_eq_nil (this : PoolRef) (vs : List T) :
    ∀ w : World T, w.pool_ this = [] →
      (acquireMany this (vs.map (fun v => (.ok v : Except ε T))) w).1 =
          (List.range vs.length).map (fun i => .ok ⟨some (w.brk + i), ⟨this⟩⟩) ∧
      (acquireMany this (vs.map (fun v => (.ok v : Except ε T))) w).2.pool_ this = [] ∧
      constructedBy this (acquireMany this (vs.map (fun v => (.ok v : Except ε T))) w).2 =
          constructedBy this w ++ (List.range vs.length).map (fun i => w.brk + i) := by
  induction vs with
  | nil => intro w hw; simp [acquireMany, hw]
  | cons v vs ih =>
    intro w hw
    simp only [List.map_cons, acquireMany, List.length_cons]
    rw [acquire_of_pool_eq_nil_ok this v w hw]
    have hw1 : ({ w with
          mem := Function.update w.mem w.brk (some v)
          brk := w.brk + 1
          news := w.news ++ [(this, w.brk)] } : World T).pool_ this = [] := hw
    obtain ⟨h1, h2, h3⟩ := ih _ hw1
    refine ⟨?_, h2, ?_⟩
    · rw [h1, List.range_succ_eq_map]
      simp [Function.comp_def, Nat.succ_eq_add_one, Nat.add_assoc, Nat.add_comm 1]
    · rw [h3, List.range_succ_eq_map]
      simp [constructedBy, List.filter_append, Function.comp_def, Nat.succ_eq_add_one,
        Nat.add_assoc, Nat.add_comm 1]

/-! ## The invariant of calling code -/

theorem Client.inv_fresh (this : PoolRef) (w : World T) (hf : Fresh this w) :
    Client.Inv this (Client.fresh w) where
  perm := by simp [Client.fresh, Client.checkedOut, hf.1, hf.2]
  lt_brk := by simp [Client.fresh, hf.2]
  nodup := by simp [Client.fresh, hf.2]
  bound := by simp [Client.fresh]
  count := by simp [Client.fresh]

/-- Splitting the checked-out instances around the handle held at position `i`. -/
theorem checkedOut_split (live : List Ptr) (i : Nat) (a : Addr) (d : PoolDeleter)
    (hi : live[i]? = some ⟨some a, d⟩) :
    ∃ o1 o2, live.filterMap Ptr.ptr = o1 ++ a :: o2 ∧
      (live.eraseIdx i).filterMap Ptr.ptr = o1 ++ o2 ∧
      (live.eraseIdx i).length + 1 = live.length := by
  obtain ⟨hlt, hget⟩ := List.getElem?_eq_some.mp hi
  refine ⟨(live.take i).filterMap Ptr.ptr, (live.drop (i + 1)).filterMap Ptr.ptr, ?_, ?_, ?_⟩
  · conv_lhs => rw [← List.take_append_drop i live, List.drop_eq_getElem_cons hlt, hget]
    simp [List.filterMap_append, List.filterMap_cons]
  · rw [List.eraseIdx_eq_take_drop_succ, List.filterMap_append]
  · rw [List.length_eraseIdx, if_pos hlt]
    omega

theorem Client.inv_step (this : PoolRef) (c : Client T) (op : Op ε T)
    (hc : Client.Inv this c) : Client.Inv this (c.step this op) := by
  obtain ⟨hperm, hlt, hnd, hb, hcnt⟩ := hc
  cases op with
  | acquire ctor =>
    by_cases hnil : c.world.pool_ this = []
    · cases ctor with
      | error e =>
        simp only [Client.step, acquire_of_pool_eq_nil_error this e c.world hnil]
        exact ⟨hperm, hlt, hnd, hb, hcnt⟩
      | ok v =>
        simp only [Client.step, acquire_of_pool_eq_nil_ok this v c.world hnil]
        have hC : constructedBy this
            ({ c.world with
                mem := Function.update c.world.mem c.world.brk (some v)
                brk := c.world.brk + 1
                news := c.world.news ++ [(this, c.world.brk)] } : World T) =
            constructedBy this c.world ++ [c.world.brk] := by
          simp [constructedBy, List.filter_append]
        have hfresh : c.world.brk ∉ constructedBy this c.world :=
          fun hmem => Nat.lt_irrefl _ (hlt _ hmem)
        refine ⟨?_, ?_, ?_, ?_, ?_⟩
        · rw [hC]
          simp only [Client.checkedOut, List.filterMap_append, List.filterMap_cons,
            List.filterMap_nil]
          rw [hnil] at hperm ⊢
          simpa [Client.checkedOut] using hperm.append_right [c.world.brk]
        · rw [hC]
          intro a ha
          rcases List.mem_append.mp ha with h | h
          · exact Nat.lt_succ_of_lt (hlt a h)
          · simp at h; subst h; exact Nat.lt_succ_self _
        · rw [hC]
          exact List.nodup_append.mpr ⟨hnd, List.nodup_singleton _,
            fun a ha hb => hfresh (by rw [List.mem_singleton.mp hb] at ha; exact ha)⟩
        · intro h hh
          rcases List.mem_append.mp hh with h1 | h1
          · exact hb h h1
          · exact ⟨c.world.brk, by simpa using h1⟩
        · simp only [List.length_append, List.length_singleton]
          omega
    · have hl := (List.dropLast_append_getLast hnil).symm
      simp only [Client.step, acquire_of_pool_eq_append this ctor c.world _ _ hl]
      refine ⟨?_, hlt, hnd, ?_, ?_⟩
      · simp only [Client.checkedOut, List.filterMap_append, List.filterMap_cons,
          List.filterMap_nil, Function.update_same]
        rw [hl] at hperm
        refine List.Perm.trans ?_ hperm
        simp only [Client.checkedOut, List.append_assoc]
        exact List.Perm.append_left _ List.perm_append_comm
      · intro h hh
        rcases List.mem_append.mp hh with h1 | h1
        · exact hb h h1
        · exact ⟨_, by simpa using h1⟩
      · simp only [List.length_append, List.length_singleton]
        omega
  | drop i =>
    cases hi : c.live[i]? with
    | none =>
      simp only [Client.step, hi]
      exact ⟨hperm, hlt, hnd, hb, hcnt⟩
    | some h =>
      obtain ⟨a, rfl⟩ := hb h (List.getElem?_mem hi)
      obtain ⟨o1, o2, ho, ho2, hlen⟩ := checkedOut_split c.live i a ⟨this⟩ hi
      simp only [Client.step, hi, Ptr.destruct, PoolDeleter.call]
      refine ⟨?_, hlt, hnd, ?_, ?_⟩
      · simp only [Client.checkedOut, release_pool_self, ho2]
        simp only [Client.checkedOut, ho] at hperm
        refine List.Perm.trans ?_ hperm
        simp only [List.append_assoc, List.singleton_append]
        exact List.Perm.append_left _ List.perm_middle.symm
      · intro h hh
        exact hb h (List.mem_of_mem_eraseIdx hh)
      · simp only [Option.isSome_some, if_true]
        omega

theorem Client.inv_run (this : PoolRef) (ops : List (Op ε T)) :
    ∀ c : Client T, Client.Inv this c → Client.Inv this (c.run this ops) := by
  induction ops with
  | nil => intro c hc; exact hc
  | cons op ops ih => intro c hc; exact ih _ (Client.inv_step this c op hc)

/-! ## Facts used by several claims -/

/-- The three ways a call of `acquire()` can go. -/
theorem acquire_cases (this : PoolRef) (ctor : Except ε T) (w : World T) :
    (∃ e, w.pool_ this = [] ∧ ctor = .error e ∧ acquire this ctor w = (.error e, w)) ∨
    (∃ v, w.pool_ this = [] ∧ ctor = .ok v ∧
      acquire this ctor w =
        (.ok ⟨some w.brk, ⟨this⟩⟩,
          { w with
            mem := Function.update w.mem w.brk (some v)
            brk := w.brk + 1
            news := w.news ++ [(this, w.brk)] })) ∨
    (∃ l x, w.pool_ this = l ++ [x] ∧
      acquire this ctor w =
        (.ok ⟨some x, ⟨this⟩⟩, { w with pool_ := Function.update w.pool_ this l })) := by
  by_cases hnil : w.pool_ this = []
  · cases ctor with
    | error e => exact Or.inl ⟨e, hnil, rfl, acquire_of_pool_eq_nil_error this e w hnil⟩
    | ok v => exact Or.inr (Or.inl ⟨v, hnil, rfl, acquire_of_pool_eq_nil_ok this v w hnil⟩)
  · have hl := (List.dropLast_append_getLast hnil).symm
    exact Or.inr (Or.inr ⟨_, _, hl, acquire_of_pool_eq_append this ctor w _ _ hl⟩)

/-- A handle returned by `acquire()` is non-null and bound to the pool. -/
theorem acquire_ok_shape (this : PoolRef) (ctor : Except ε T) (w : World T) (h : Ptr)
    (hok : (acquire this ctor w).1 = .ok h) : ∃ a, h = ⟨some a, ⟨this⟩⟩ := by
  rcases acquire_cases this ctor w with ⟨e, -, -, he⟩ | ⟨v, -, -, he⟩ | ⟨l, x, -, he⟩
  · rw [he] at hok; cases hok
  · rw [he] at hok; cases hok; exact ⟨_, rfl⟩
  · rw [he] at hok; cases hok; exact ⟨_, rfl⟩

/-- No call of `acquire()` runs `delete`. -/
theorem acquire_deletes (this : PoolRef) (ctor : Except ε T) (w : World T) :
    (acquire this ctor w).2.deletes = w.deletes := by
  rcases acquire_cases this ctor w with ⟨e, -, -, he⟩ | ⟨v, -, -, he⟩ | ⟨l, x, -, he⟩ <;>
    rw [he]

/-- No destruction of a handle runs `delete`. -/
theorem destruct_deletes (h : Ptr) (w : World T) : (h.destruct w).deletes = w.deletes := by
  cases h with
  | mk p d => cases p <;> rfl

theorem Client.step_deletes (this : PoolRef) (c : Client T) (op : Op ε T) :
    (c.step this op).world.deletes = c.world.deletes := by
  cases op with
  | acquire ctor =>
    have hd := acquire_deletes this ctor c.world
    simp only [Client.step]
    split
    · next h w1 heq => rw [heq] at hd; exact hd
    · next e w1 heq => rw [heq] at hd; exact hd
  | drop i =>
    simp only [Client.step]
    split
    · rfl
    · exact destruct_deletes _ _

theorem Client.run_deletes (this : PoolRef) (ops : List (Op ε T)) :
    ∀ c : Client T, (c.run this ops).world.deletes = c.world.deletes := by
  induction ops with
  | nil => intro c; rfl
  | cons op ops ih =>
    intro c
    exact (ih (c.step this op)).trans (Client.step_deletes this c op)

/-- The loop of the destructor, over any list of pointers. -/
theorem foldl_opDelete (l : List Addr) :
    ∀ w : World T,
      (l.foldl (fun acc obj => opDelete obj acc) w).deletes = w.deletes ++ l ∧
      (l.foldl (fun acc obj => opDelete obj acc) w).pool_ = w.pool_ ∧
      (l.foldl (fun acc obj => opDelete obj acc) w).news = w.news ∧
      ∀ a, (l.foldl (fun acc obj => opDelete obj acc) w).mem a =
        if a ∈ l then none else w.mem a := by
  induction l with
  | nil => intro w; simp
  | cons x xs ih =>
    intro w
    obtain ⟨h1, h2, h3, h4⟩ := ih (opDelete x w)
    refine ⟨?_, ?_, ?_, ?_⟩
    · rw [List.foldl_cons, h1]; simp [opDelete]
    · rw [List.foldl_cons, h2]; rfl
    · rw [List.foldl_cons, h3]; rfl
    · intro a
      simp only [List.foldl_cons, h4, List.mem_cons]
      by_cases hxs : a ∈ xs
      · simp [hxs]
      · by_cases hax : a = x
        · simp [hax, opDelete]
        · simp [hxs, hax, opDelete, Function.update_noteq hax]

/-- Handles that `acquire()` returned: the stored pointers are the checked-out
instances. -/
theorem map_ptr_eq (this : PoolRef) (l : List Ptr)
    (hb : ∀ h ∈ l, ∃ a, h = ⟨some a, ⟨this⟩⟩) :
    l.map Ptr.ptr = (l.filterMap Ptr.ptr).map some := by
  induction l with
  | nil => rfl
  | cons h t ih =>
    obtain ⟨a, rfl⟩ := hb h (List.mem_cons_self _ _)
    have := ih (fun h2 hh => hb h2 (List.mem_cons_of_mem _ hh))
    simp [List.filterMap_cons, this]

/-- The calls balance with the handles held, whatever the state the calling
code started from. -/
theorem Client.count_run (this : PoolRef) (ops : List (Op ε T)) :
    ∀ c : Client T, (∀ h ∈ c.live, ∃ a, h = ⟨some a, ⟨this⟩⟩) →
      c.acquired = c.released + c.live.length →
      (∀ h ∈ (c.run this ops).live, ∃ a, h = ⟨some a, ⟨this⟩⟩) ∧
      (c.run this ops).acquired = (c.run this ops).released + (c.run this ops).live.length := by
  induction ops with
  | nil => intro c hb hc; exact ⟨hb, hc⟩
  | cons op ops ih =>
    intro c hb hc
    refine ih (c.step this op) ?_ ?_
    · cases op with
      | acquire ctor =>
        simp only [Client.step]
        split
        · next h w1 heq =>
          intro h2 hh
          rcases List.mem_append.mp hh with h1 | h1
          · exact hb h2 h1
          · rw [List.mem_singleton.mp h1]
            exact acquire_ok_shape this ctor c.world h (by rw [heq])
        · exact hb
      | drop i =>
        simp only [Client.step]
        split
        · exact hb
        · intro h2 hh
          exact hb h2 (List.mem_of_mem_eraseIdx hh)
    · cases op with
      | acquire ctor =>
        simp only [Client.step]
        split
        · simp only [List.length_append, List.length_singleton]; omega
        · exact hc
      | drop i =>
        simp only [Client.step]
        split
        · exact hc
        · next h hi =>
          obtain ⟨a, rfl⟩ := hb h (List.getElem?_mem hi)
          obtain ⟨hlt, -⟩ := List.getElem?_eq_some.mp hi
          simp only [Option.isSome_some, if_true, List.length_eraseIdx, if_pos hlt]
          omega

/-! ## The claims -/

/-- C1 (reuse law).  For every state `w`, pool `this` and instance `x`:
`release(x)` followed by `acquire()` returns a handle that wraps `x` and is
bound to `this`, whatever `T()` would do (it is not evaluated: the log of
new-expressions is the one of `w`), and the idle collection, like the rest of
the state, is again what it was in `w`. -/
theorem C1_reuse_law (this : PoolRef) (w : World T) (x : Addr) (ctor : Except ε T) :
    (acquire this ctor (release this x w)).1 = .ok ⟨some x, ⟨this⟩⟩ ∧
    (acquire this ctor (release this x w)).2.news = w.news ∧
    (acquire this ctor (release this x w)).2.pool_ this = w.pool_ this ∧
    (acquire this ctor (release this x w)).2 = w := by
  rw [acquire_release]
  exact ⟨rfl, rfl, rfl, rfl⟩

/-- C2 (LIFO reuse).  For every state `w`, pool `this` and instances `xs`
released in that order, the next `xs.length` calls of `acquire()` (whatever
`T()` would do in each) return handles wrapping the instances of `xs` in
reverse order, each bound to `this`; no new-expression runs and the idle
collection, like the rest of the state, is again what it was in `w`. -/
theorem C2_lifo_reuse (this : PoolRef) (xs : List Addr) :
    ∀ (ctors : List (Except ε T)) (w : World T), ctors.length = xs.length →
      (acquireMany this ctors (releaseAll this xs w)).1 =
          xs.reverse.map (fun x => .ok ⟨some x, ⟨this⟩⟩) ∧
      (acquireMany this ctors (releaseAll this xs w)).2.news = w.news ∧
      (acquireMany this ctors (releaseAll this xs w)).2.pool_ this = w.pool_ this ∧
      (acquireMany this ctors (releaseAll this xs w)).2 = w := by
  induction xs using List.reverseRecOn with
  | nil =>
    intro ctors w hlen
    have : ctors = [] := List.length_eq_zero.mp hlen
    subst this
    simp [acquireMany, releaseAll]
  | append_singleton ys y ih =>
    intro ctors w hlen
    cases ctors with
    | nil => simp at hlen
    | cons c cs =>
      have hcs : cs.length = ys.length := by simpa using hlen
      obtain ⟨h1, -, -, h4⟩ := ih cs w hcs
      simp only [acquireMany, releaseAll_append_singleton, acquire_release, List.reverse_append,
        List.reverse_cons, List.reverse_nil, List.nil_append, List.singleton_append,
        List.map_cons, h1, h4, and_self]

/-- C2, at a concrete input: three instances released into a pool that already
holds one, then three calls of `acquire()`. -/
theorem C2_lifo_reuse_witness :
    ([.ok 0, .error "boom", .ok 0] : List (Except String Nat)).length = [11, 12, 13].length ∧
    (acquireMany 0 ([.ok 0, .error "boom", .ok 0] : List (Except String Nat))
        (releaseAll 0 [11, 12, 13] (release 0 10 World.start))).1 =
      [.ok ⟨some 13, ⟨0⟩⟩, .ok ⟨some 12, ⟨0⟩⟩, .ok ⟨some 11, ⟨0⟩⟩] ∧
    (acquireMany 0 ([.ok 0, .error "boom", .ok 0] : List (Except String Nat))
        (releaseAll 0 [11, 12, 13] (release 0 10 World.start))).2.pool_ 0 = [10] :=
  ⟨rfl,
    (C2_lifo_reuse 0 [11, 12, 13] _ (release 0 10 World.start) rfl).1,
    ((C2_lifo_reuse 0 [11, 12, 13] ([.ok 0, .error "boom", .ok 0] : List (Except String Nat))
      (release 0 10 World.start) rfl).2.2.1).trans (by simp [World.start])⟩

/-- C5 (exhaustion growth).  For every `N` (the length of `vs`, the values the
`N` default constructions produce): `N` calls of `acquire()` on a freshly
constructed pool, none of the handles released, all return a handle; the `N`
wrapped instances are pairwise distinct; the pool has run exactly `N`
new-expressions; and its idle collection has 0 entries. -/
theorem C5_exhaustion_growth (this : PoolRef) (vs : List T) (w : World T)
    (hf : Fresh this w) :
    (acquireMany this (vs.map (fun v => (.ok v : Except ε T))) w).1 =
        (List.range vs.length).map (fun i => .ok ⟨some (w.brk + i), ⟨this⟩⟩) ∧
    (handedOut (acquireMany this (vs.map (fun v => (.ok v : Except ε T))) w).1).length
        = vs.length ∧
    (handedOut (acquireMany this (vs.map (fun v => (.ok v : Except ε T))) w).1).Nodup ∧
    (constructedBy this
        (acquireMany this (vs.map (fun v => (.ok v : Except ε T))) w).2).length = vs.length ∧
    ((acquireMany this (vs.map (fun v => (.ok v : Except ε T))) w).2.pool_ this).length = 0 := by
  obtain ⟨h1, h2, h3⟩ := acquireMany_of_pool_eq_nil (ε := ε) this vs w hf.1
  have hout : handedOut (acquireMany this (vs.map (fun v => (.ok v : Except ε T))) w).1 =
      (List.range vs.length).map (fun i => w.brk + i) := by
    rw [h1]
    simp only [handedOut, List.filterMap_map, Function.comp_def]
    exact congrFun (List.filterMap_eq_map (fun i => w.brk + i)) _
  refine ⟨h1, ?_, ?_, ?_, ?_⟩
  · rw [hout]; simp
  · rw [hout]
    exact (List.nodup_range _).map (fun a b hab => Nat.add_left_cancel hab)
  · rw [h3, hf.2]; simp
  · rw [h2]; rfl

/-- C5, at `N = 2`: two acquires on a fresh pool give the distinct instances 0
and 1, leave 0 idle entries and have constructed exactly 2 instances. -/
theorem C5_exhaustion_growth_witness :
    Fresh 0 (World.start : World Nat) ∧
    (acquireMany 0 ([7, 7].map (fun v => (.ok v : Except String Nat))) World.start).1 =
        [.ok ⟨some 0, ⟨0⟩⟩, .ok ⟨some 1, ⟨0⟩⟩] ∧
    (constructedBy 0
        (acquireMany 0 ([7, 7].map (fun v => (.ok v : Except String Nat))) World.start).2).length
        = 2 ∧
    ((acquireMany 0 ([7, 7].map (fun v => (.ok v : Except String Nat))) World.start).2.pool_
        0).length = 0 :=
  ⟨⟨rfl, rfl⟩,
    (C5_exhaustion_growth 0 [7, 7] World.start ⟨rfl, rfl⟩).1,
    (C5_exhaustion_growth 0 [7, 7] World.start ⟨rfl, rfl⟩).2.2.2.1,
    (C5_exhaustion_growth 0 [7, 7] World.start ⟨rfl, rfl⟩).2.2.2.2⟩

/-- C6 (no-reset law).  For every state `w`, instance `x` and value `v` written
into `x` through a handle before the release: `release(x)` changes nothing on
the free store, the following `acquire()` hands `x` out again and changes
nothing on the free store either, so the reacquired instance still holds `v`. -/
theorem C6_no_reset (this : PoolRef) (w : World T) (x : Addr) (d : PoolDeleter) (v : T)
    (ctor : Except ε T) :
    (release this x (Ptr.write ⟨some x, d⟩ v w)).mem = (Ptr.write ⟨some x, d⟩ v w).mem ∧
    (acquire this ctor (release this x (Ptr.write ⟨some x, d⟩ v w))).1
        = .ok ⟨some x, ⟨this⟩⟩ ∧
    (acquire this ctor (release this x (Ptr.write ⟨some x, d⟩ v w))).2.mem
        = (Ptr.write ⟨some x, d⟩ v w).mem ∧
    (acquire this ctor (release this x (Ptr.write ⟨some x, d⟩ v w))).2.mem x = some v := by
  rw [acquire_release]
  refine ⟨rfl, rfl, rfl, ?_⟩
  simp [Ptr.write]

/-- C7 (construction-failure atomicity).  For every state `w` and pool `this`:
if the idle collection is empty and `T()` throws `e`, then `acquire()` throws
`e`, returns no handle and leaves the whole state as it was; if the idle
collection is not empty, `acquire()` returns a handle whatever `T()` would do
(its result does not depend on `ctor`) and no new-expression is logged; hence
whenever `acquire()` throws, the idle collection was empty, the exception is
the one of `T()`, and the state is unchanged. -/
theorem C7_construction_failure (this : PoolRef) (w : World T) (ctor : Except ε T) :
    (∀ e, ctor = .error e → w.pool_ this = [] → acquire this ctor w = (.error e, w)) ∧
    (w.pool_ this ≠ [] →
      (∃ h, (acquire this ctor w).1 = .ok h) ∧
      (∀ ctor2 : Except ε T, acquire this ctor2 w = acquire this ctor w) ∧
      (acquire this ctor w).2.news = w.news ∧
      (acquire this ctor w).2.mem = w.mem) ∧
    (∀ e, (acquire this ctor w).1 = .error e →
      w.pool_ this = [] ∧ ctor = .error e ∧ (acquire this ctor w).2 = w) := by
  refine ⟨?_, ?_, ?_⟩
  · intro e he hnil
    rw [he, acquire_of_pool_eq_nil_error this e w hnil]
  · intro hne
    have hl := (List.dropLast_append_getLast hne).symm
    refine ⟨⟨⟨some ((w.pool_ this).getLast hne), ⟨this⟩⟩, ?_⟩, ?_, ?_, ?_⟩
    · rw [acquire_of_pool_eq_append this ctor w _ _ hl]
    · intro ctor2
      rw [acquire_of_pool_eq_append this ctor w _ _ hl,
        acquire_of_pool_eq_append this ctor2 w _ _ hl]
    · rw [acquire_of_pool_eq_append this ctor w _ _ hl]
    · rw [acquire_of_pool_eq_append this ctor w _ _ hl]
  · intro e he
    by_cases hne : w.pool_ this = []
    · cases ctor with
      | error e2 =>
        rw [acquire_of_pool_eq_nil_error this e2 w hne] at he ⊢
        cases he
        exact ⟨hne, rfl, rfl⟩
      | ok v =>
        rw [acquire_of_pool_eq_nil_ok this v w hne] at he
        cases he
    · have hl := (List.dropLast_append_getLast hne).symm
      rw [acquire_of_pool_eq_append this ctor w _ _ hl] at he
      cases he

/-- C7, at concrete inputs: a throwing constructor on an empty pool, and the
same constructor on a pool with one idle instance. -/
theorem C7_construction_failure_witness :
    acquire 0 (.error "boom" : Except String Nat) World.start = (.error "boom", World.start) ∧
    (∃ h, (acquire 0 (.error "boom" : Except String Nat) (release 0 5 World.start)).1 = .ok h) :=
  ⟨(C7_construction_failure 0 World.start (.error "boom" : Except String Nat)).1
      "boom" rfl rfl,
    ((C7_construction_failure 0 (release 0 5 World.start)
      (.error "boom" : Except String Nat)).2.1 (by simp [release, World.start])).1⟩

/-- C3 (two-state invariant).  Start on a freshly constructed pool and run any
sequence of `acquire()` calls and handle destructions.  Then an instance was
constructed by the pool exactly when it is idle or checked out; none is both;
the idle collection has no repeated entry; each constructed instance occurs
exactly once in the idle collection and the checked-out instances taken
together; and the number constructed is the idle count plus the checked-out
count. -/
theorem C3_two_state_invariant (this : PoolRef) (w0 : World T) (hf : Fresh this w0)
    (ops : List (Op ε T)) :
    (∀ a, a ∈ constructedBy this ((Client.fresh w0).run this ops).world ↔
      (a ∈ ((Client.fresh w0).run this ops).world.pool_ this ∨
        a ∈ ((Client.fresh w0).run this ops).checkedOut)) ∧
    (∀ a, ¬ (a ∈ ((Client.fresh w0).run this ops).world.pool_ this ∧
      a ∈ ((Client.fresh w0).run this ops).checkedOut)) ∧
    (((Client.fresh w0).run this ops).world.pool_ this).Nodup ∧
    (∀ a ∈ constructedBy this ((Client.fresh w0).run this ops).world,
      (((Client.fresh w0).run this ops).world.pool_ this).count a +
        ((Client.fresh w0).run this ops).checkedOut.count a = 1) ∧
    (constructedBy this ((Client.fresh w0).run this ops).world).length =
      (((Client.fresh w0).run this ops).world.pool_ this).length +
        ((Client.fresh w0).run this ops).checkedOut.length := by
  have hinv := Client.inv_run this ops _ (Client.inv_fresh this w0 hf)
  generalize (Client.fresh w0).run this ops = c at hinv
  have hnd : (c.world.pool_ this ++ c.checkedOut).Nodup := hinv.perm.nodup_iff.mpr hinv.nodup
  refine ⟨?_, ?_, ?_, ?_, ?_⟩
  · intro a
    rw [← hinv.perm.mem_iff, List.mem_append]
  · rintro a ⟨h1, h2⟩
    exact (List.nodup_append.mp hnd).2.2 h1 h2
  · exact (List.nodup_append.mp hnd).1
  · intro a ha
    rw [← List.count_append]
    exact List.count_eq_one_of_mem hnd (hinv.perm.mem_iff.mpr ha)
  · rw [← hinv.perm.length_eq, List.length_append]

/-- C3, at a concrete run: acquire twice, drop the first handle, acquire, drop
both handles. -/
theorem C3_two_state_invariant_witness :
    Fresh 0 (World.start : World Nat) ∧
    (((Client.fresh (World.start : World Nat)).run 0
      ([.acquire (.ok 7), .acquire (.ok 7), .drop 0, .acquire (.error "boom"), .drop 0,
        .drop 0] : List (Op String Nat))).world.pool_ 0).Nodup :=
  ⟨⟨rfl, rfl⟩, (C3_two_state_invariant 0 World.start ⟨rfl, rfl⟩ _).2.2.1⟩

/-- C4 (handle exclusivity).  Start on a freshly constructed pool and run any
sequence of `acquire()` calls and handle destructions.  Then every handle held
is non-null and no two of them store the same pointer; and if `acquire()` is
called now and returns a handle, the instance it wraps is none of the
instances that are checked out at that moment. -/
theorem C4_handle_exclusivity (this : PoolRef) (w0 : World T) (hf : Fresh this w0)
    (ops : List (Op ε T)) (ctor : Except ε T) :
    (∀ h ∈ ((Client.fresh w0).run this ops).live, h.ptr ≠ none) ∧
    (((Client.fresh w0).run this ops).live.map Ptr.ptr).Nodup ∧
    ((Client.fresh w0).run this ops).checkedOut.Nodup ∧
    (∀ h, (acquire this ctor ((Client.fresh w0).run this ops).world).1 = .ok h →
      ∃ x, h = ⟨some x, ⟨this⟩⟩ ∧ x ∉ ((Client.fresh w0).run this ops).checkedOut) := by
  have hinv := Client.inv_run this ops _ (Client.inv_fresh this w0 hf)
  generalize (Client.fresh w0).run this ops = c at hinv
  have hnd : (c.world.pool_ this ++ c.checkedOut).Nodup := hinv.perm.nodup_iff.mpr hinv.nodup
  have hout : c.checkedOut.Nodup := (List.nodup_append.mp hnd).2.1
  refine ⟨?_, ?_, hout, ?_⟩
  · intro h hh
    obtain ⟨a, rfl⟩ := hinv.bound h hh
    simp
  · rw [map_ptr_eq this c.live hinv.bound]
    exact hout.map (Option.some_injective _)
  · intro h hok
    rcases acquire_cases this ctor c.world with ⟨e, -, -, he⟩ | ⟨v, -, -, he⟩ | ⟨l, x, hl, he⟩
    · rw [he] at hok; cases hok
    · rw [he] at hok
      cases hok
      refine ⟨_, rfl, fun hmem => ?_⟩
      have : c.world.brk ∈ constructedBy this c.world :=
        hinv.perm.mem_iff.mp (List.mem_append_right _ hmem)
      exact Nat.lt_irrefl _ (hinv.lt_brk _ this)
    · rw [he] at hok
      cases hok
      refine ⟨_, rfl, fun hmem => ?_⟩
      exact (List.nodup_append.mp hnd).2.2 (by rw [hl]; simp) hmem

/-- C4, at a concrete run: with one handle held (on instance 1) and instance 0
idle, `acquire()` hands out instance 0. -/
theorem C4_handle_exclusivity_witness :
    Fresh 0 (World.start : World Nat) ∧
    ((Client.fresh (World.start : World Nat)).run 0
      ([.acquire (.ok 7), .acquire (.ok 7), .drop 0] : List (Op String Nat))).checkedOut.Nodup :=
  ⟨⟨rfl, rfl⟩,
    (C4_handle_exclusivity 0 World.start ⟨rfl, rfl⟩
      ([.acquire (.ok 7), .acquire (.ok 7), .drop 0] : List (Op String Nat)) (.ok 7)).2.2.1⟩

/-- C8 (complete teardown).  Start on a freshly constructed pool and run any
sequence of `acquire()` calls and handle destructions after which no handle is
held.  Then the destructor of the pool passes to `delete` exactly the idle
collection, which is a rearrangement without repetition of the instances the
pool constructed: each of them is deleted exactly once, none outlives the
pool, and nothing had been deleted before the destructor ran. -/
theorem C8_complete_teardown (this : PoolRef) (w0 : World T) (hf : Fresh this w0)
    (ops : List (Op ε T)) (hz : ((Client.fresh w0).run this ops).live = []) :
    (destroy this ((Client.fresh w0).run this ops).world).deletes =
      w0.deletes ++ ((Client.fresh w0).run this ops).world.pool_ this ∧
    (((Client.fresh w0).run this ops).world.pool_ this).Perm
      (constructedBy this ((Client.fresh w0).run this ops).world) ∧
    (((Client.fresh w0).run this ops).world.pool_ this).Nodup ∧
    (∀ a ∈ constructedBy this ((Client.fresh w0).run this ops).world,
      (((Client.fresh w0).run this ops).world.pool_ this).count a = 1) ∧
    (∀ a ∈ constructedBy this ((Client.fresh w0).run this ops).world,
      (destroy this ((Client.fresh w0).run this ops).world).mem a = none) := by
  have hinv := Client.inv_run this ops _ (Client.inv_fresh this w0 hf)
  have hdel : ((Client.fresh w0).run this ops).world.deletes = w0.deletes :=
    Client.run_deletes this ops (Client.fresh w0)
  generalize (Client.fresh w0).run this ops = c at hinv hz hdel
  have hperm : (c.world.pool_ this).Perm (constructedBy this c.world) := by
    have := hinv.perm
    simpa [Client.checkedOut, hz] using this
  have hnd : (c.world.pool_ this).Nodup := hperm.nodup_iff.mpr hinv.nodup
  obtain ⟨h1, -, -, h4⟩ := foldl_opDelete (c.world.pool_ this) c.world
  refine ⟨?_, hperm, hnd, ?_, ?_⟩
  · rw [← hdel]; exact h1
  · intro a ha
    exact List.count_eq_one_of_mem hnd (hperm.mem_iff.mpr ha)
  · intro a ha
    have hmem : a ∈ c.world.pool_ this := hperm.mem_iff.mpr ha
    simp only [destroy, h4, if_pos hmem]

/-- C8, at a concrete run: two instances constructed, all handles dropped. -/
theorem C8_complete_teardown_witness :
    Fresh 0 (World.start : World Nat) ∧
    ((Client.fresh (World.start : World Nat)).run 0
      ([.acquire (.ok 7), .acquire (.ok 7), .drop 0, .drop 0] : List (Op String Nat))).live
      = [] ∧
    (destroy 0 ((Client.fresh (World.start : World Nat)).run 0
      ([.acquire (.ok 7), .acquire (.ok 7), .drop 0, .drop 0] :
        List (Op String Nat))).world).deletes = [0, 1] :=
  ⟨⟨rfl, rfl⟩, rfl,
    (C8_complete_teardown 0 World.start ⟨rfl, rfl⟩
      ([.acquire (.ok 7), .acquire (.ok 7), .drop 0, .drop 0] : List (Op String Nat))
      rfl).1.trans rfl⟩

/-- C9 (checkout bound).  Let calling code that holds no handle run any
sequence of `acquire()` calls and handle destructions on a pool in any state,
and stop it at any point `k`.  Then the releases made do not outnumber the
acquires that returned a handle, and the number of instances checked out is at
most the number of those acquires minus the number of releases.  On a pool
that was freshly constructed at the start the same bound holds for the
instances the pool constructed that are not in its idle collection. -/
theorem C9_checkout_bound (this : PoolRef) (w0 : World T) (ops : List (Op ε T)) (k : Nat) :
    ((Client.fresh w0).run this (ops.take k)).released ≤
      ((Client.fresh w0).run this (ops.take k)).acquired ∧
    ((Client.fresh w0).run this (ops.take k)).checkedOut.length ≤
      ((Client.fresh w0).run this (ops.take k)).acquired -
        ((Client.fresh w0).run this (ops.take k)).released ∧
    (Fresh this w0 →
      ((constructedBy this ((Client.fresh w0).run this (ops.take k)).world).filter
        (fun a => decide (a ∉ ((Client.fresh w0).run this (ops.take k)).world.pool_ this))).length ≤
      ((Client.fresh w0).run this (ops.take k)).acquired -
        ((Client.fresh w0).run this (ops.take k)).released) := by
  obtain ⟨-, hcnt⟩ := Client.count_run this (ops.take k) (Client.fresh w0)
    (by simp [Client.fresh]) (by simp [Client.fresh])
  have hle : ((Client.fresh w0).run this (ops.take k)).checkedOut.length ≤
      ((Client.fresh w0).run this (ops.take k)).live.length :=
    List.length_filterMap_le _ _
  refine ⟨by omega, by omega, fun hf => ?_⟩
  have hinv := Client.inv_run this (ops.take k) _ (Client.inv_fresh this w0 hf)
  generalize (Client.fresh w0).run this (ops.take k) = c at hinv hcnt hle
  have hnd : (c.world.pool_ this ++ c.checkedOut).Nodup := hinv.perm.nodup_iff.mpr hinv.nodup
  have hfil := (hinv.perm.filter (fun a => decide (a ∉ c.world.pool_ this))).length_eq
  have h1 : (c.world.pool_ this).filter (fun a => decide (a ∉ c.world.pool_ this)) = [] := by
    rw [List.filter_eq_nil_iff]
    intro a ha
    simp [ha]
  have h2 : c.checkedOut.filter (fun a => decide (a ∉ c.world.pool_ this)) = c.checkedOut := by
    rw [List.filter_eq_self]
    intro a ha
    have : a ∉ c.world.pool_ this := fun hp => (List.nodup_append.mp hnd).2.2 hp ha
    simp [this]
  rw [List.filter_append, h1, h2, List.nil_append] at hfil
  omega

/-- C9, at a concrete run stopped after three of its four operations: one
instance is checked out, two acquires returned a handle, one release ran. -/
theorem C9_checkout_bound_witness :
    Fresh 0 (World.start : World Nat) ∧
    ((Client.fresh (World.start : World Nat)).run 0
      (([.acquire (.ok 7), .acquire (.ok 7), .drop 0, .drop 0] :
        List (Op String Nat)).take 3)).checkedOut.length ≤ 2 - 1 ∧
    ((constructedBy 0 ((Client.fresh (World.start : World Nat)).run 0
      (([.acquire (.ok 7), .acquire (.ok 7), .drop 0, .drop 0] :
        List (Op String Nat)).take 3)).world).filter
      (fun a => decide (a ∉ ((Client.fresh (World.start : World Nat)).run 0
        (([.acquire (.ok 7), .acquire (.ok 7), .drop 0, .drop 0] :
          List (Op String Nat)).take 3)).world.pool_ 0))).length ≤ 2 - 1 :=
  ⟨⟨rfl, rfl⟩,
    (C9_checkout_bound 0 (World.start : World Nat)
      ([.acquire (.ok 7), .acquire (.ok 7), .drop 0, .drop 0] : List (Op String Nat)) 3).2.1,
    (C9_checkout_bound 0 (World.start : World Nat)
      ([.acquire (.ok 7), .acquire (.ok 7), .drop 0, .drop 0] : List (Op String Nat)) 3).2.2
      ⟨rfl, rfl⟩⟩

/-- C10 (return on handle destruction).  Let `h` be a handle that `acquire()`
on the pool `this` returned, and `w2` any later state.  Then `h` wraps an
instance `x` and is bound to `this`, and:
destroying `h` is exactly `release(x)` on `this`: `x` is appended once to the
idle collection of `this`, nothing is deleted and the free store is untouched;
`h.reset(p)` has that same effect and leaves `h` storing `p`, so after
`h.reset()` the destruction of `h` does nothing more;
`h = std::move(r)`, for another handle `r`, has that same effect, after which
`h` holds what `r` held and destroying the moved-from `r` does nothing;
after the destruction the next `acquire()` hands `x` out again.
For calling code that only acquires and drops handles, every acquire that
returned a handle is matched by exactly one release or its handle is still
held. -/
theorem C10_return_on_destruction (this : PoolRef) (ctor : Except ε T) (w : World T) (h : Ptr)
    (hacq : (acquire this ctor w).1 = .ok h) (w2 w0 : World T) (ops : List (Op ε T)) :
    ∃ x, h = ⟨some x, ⟨this⟩⟩ ∧
      h.destruct w2 = release this x w2 ∧
      (h.destruct w2).pool_ this = w2.pool_ this ++ [x] ∧
      (h.destruct w2).deletes = w2.deletes ∧
      (h.destruct w2).mem = w2.mem ∧
      (∀ p, h.reset p w2 = (⟨p, ⟨this⟩⟩, release this x w2)) ∧
      (∀ w3 : World T, (h.reset none w2).1.destruct w3 = w3) ∧
      (∀ r : Ptr, h.moveAssign r w2 = (⟨r.ptr, r.deleter⟩, ⟨none, r.deleter⟩, release this x w2)) ∧
      (∀ (r : Ptr) (w3 : World T), (h.moveAssign r w2).2.1.destruct w3 = w3) ∧
      (∀ ctor2 : Except ε T, (acquire this ctor2 (h.destruct w2)).1 = .ok ⟨some x, ⟨this⟩⟩) ∧
      ((Client.fresh w0).run this ops).acquired =
        ((Client.fresh w0).run this ops).released +
          ((Client.fresh w0).run this ops).live.length := by
  obtain ⟨x, rfl⟩ := acquire_ok_shape this ctor w h hacq
  obtain ⟨-, hcnt⟩ := Client.count_run this ops (Client.fresh w0)
    (by simp [Client.fresh]) (by simp [Client.fresh])
  refine ⟨x, rfl, rfl, ?_, rfl, rfl, ?_, ?_, ?_, ?_, ?_, hcnt⟩
  · simp [Ptr.destruct, PoolDeleter.call]
  · intro p; rfl
  · intro w3; rfl
  · intro r; rfl
  · intro r w3; rfl
  · intro ctor2
    simp only [Ptr.destruct, PoolDeleter.call, acquire_release]

/-- C10, at a concrete input: the handle that the first `acquire()` on a fresh
pool returns wraps instance 0; dropping it later puts 0 into the idle
collection. -/
theorem C10_return_on_destruction_witness :
    (acquire 0 (.ok 7 : Except String Nat) World.start).1 = .ok ⟨some 0, ⟨0⟩⟩ ∧
    ∃ x, (⟨some 0, ⟨0⟩⟩ : Ptr) = ⟨some x, ⟨0⟩⟩ ∧
      (Ptr.destruct ⟨some 0, ⟨0⟩⟩ (acquire 0 (.ok 7 : Except String Nat) World.start).2).pool_ 0
        = (acquire 0 (.ok 7 : Except String Nat) World.start).2.pool_ 0 ++ [x] :=
  ⟨rfl,
    (C10_return_on_destruction 0 (.ok 7 : Except String Nat) World.start ⟨some 0, ⟨0⟩⟩ rfl
      (acquire 0 (.ok 7 : Except String Nat) World.start).2 World.start []).imp
      (fun _ hx => ⟨hx.1, hx.2.2.1⟩)⟩

/-! ## Construction and destruction along a run -/

/-- A call of `acquire()` only ever appends to the log of new-expressions, and
an instance that lives on the free store before the call lives there after. -/
theorem acquire_grows (this : PoolRef) (ctor : Except ε T) (w : World T) :
    (∃ t, w.news ++ t = (acquire this ctor w).2.news) ∧
    (∀ a, (w.mem a).isSome → ((acquire this ctor w).2.mem a).isSome) := by
  rcases acquire_cases this ctor w with ⟨e, -, -, he⟩ | ⟨v, -, -, he⟩ | ⟨l, x, -, he⟩
  · rw [he]; exact ⟨⟨[], by simp⟩, fun a ha => ha⟩
  · rw [he]
    refine ⟨⟨[(this, w.brk)], rfl⟩, fun a ha => ?_⟩
    by_cases hab : a = w.brk
    · subst hab; simp
    · simpa [Function.update_noteq hab] using ha
  · rw [he]; exact ⟨⟨[], by simp⟩, fun a ha => ha⟩

/-- The destruction of a handle leaves the log of new-expressions alone. -/
theorem destruct_news (h : Ptr) (w : World T) : (h.destruct w).news = w.news := by
  cases h with
  | mk p d => cases p <;> rfl

theorem Client.step_news (this : PoolRef) (c : Client T) (op : Op ε T) :
    ∃ t, c.world.news ++ t = (c.step this op).world.news := by
  cases op with
  | acquire ctor =>
    have hg := (acquire_grows this ctor c.world).1
    simp only [Client.step]
    split
    · next h w1 heq => rw [heq] at hg; exact hg
    · next e w1 heq => rw [heq] at hg; exact hg
  | drop i =>
    simp only [Client.step]
    split
    · exact ⟨[], by simp⟩
    · exact ⟨[], by simp [destruct_news]⟩

theorem Client.run_news (this : PoolRef) (ops : List (Op ε T)) :
    ∀ c : Client T, ∃ t, c.world.news ++ t = (c.run this ops).world.news := by
  induction ops with
  | nil => intro c; exact ⟨[], by simp [Client.run]⟩
  | cons op ops ih =>
    intro c
    obtain ⟨t1, h1⟩ := Client.step_news this c op
    obtain ⟨t2, h2⟩ := ih (c.step this op)
    refine ⟨t1 ++ t2, ?_⟩
    rw [← List.append_assoc, h1]
    exact h2

/-- When the log of new-expressions grows at its end, so does the list of
instances a pool constructed. -/
theorem constructedBy_grows (this : PoolRef) (w w1 : World T)
    (hg : ∃ t, w.news ++ t = w1.news) :
    ∃ t, constructedBy this w ++ t = constructedBy this w1 := by
  obtain ⟨t, ht⟩ := hg
  refine ⟨(t.filter (fun e => e.1 == this)).map Prod.snd, ?_⟩
  simp [constructedBy, ← ht, List.filter_append]

/-- C11, as stated, fails when `T()` throws: on an empty pool `acquire()` then
propagates the exception and no instance has been constructed, although the
idle collection was empty at the call. -/
theorem C11_instance_lifecycle_counterexample :
    ¬ ((acquire 0 (.error "boom" : Except String Nat) World.start).2.news
          ≠ (World.start : World Nat).news ↔
        (World.start : World Nat).pool_ 0 = []) :=
  fun h => (h.mpr rfl) rfl

/-- C11 (instance lifecycle), amended.  `acquire()` constructs a new instance
if and only if the idle collection is empty at the call and `T()` does not
throw; it then constructs exactly one, holding the value `T()` produced, and
hands that one out; when `T()` throws on an empty idle collection, `acquire()`
throws that same exception, returns no handle, constructs nothing and leaves
the state as it was.  `release` never constructs.  Neither `acquire()` nor `release` passes anything to
`delete` or removes an instance from the free store.  Hence along any run of
calling code the list of instances the pool constructed only grows at its end
and nothing is deleted. -/
theorem C11_instance_lifecycle (this : PoolRef) (ctor : Except ε T) (w : World T) (x : Addr)
    (c : Client T) (ops : List (Op ε T)) :
    ((acquire this ctor w).2.news ≠ w.news ↔ (w.pool_ this = [] ∧ ∃ v, ctor = .ok v)) ∧
    (∀ v, w.pool_ this = [] → ctor = .ok v →
      (acquire this ctor w).2.news = w.news ++ [(this, w.brk)] ∧
      constructedBy this (acquire this ctor w).2 = constructedBy this w ++ [w.brk] ∧
      (acquire this ctor w).2.mem w.brk = some v ∧
      (acquire this ctor w).1 = .ok ⟨some w.brk, ⟨this⟩⟩) ∧
    (∀ e, w.pool_ this = [] → ctor = .error e →
      (acquire this ctor w).1 = .error e ∧
      (acquire this ctor w).2.news = w.news ∧
      (acquire this ctor w).2 = w) ∧
    (w.pool_ this ≠ [] → (acquire this ctor w).2.news = w.news) ∧
    (release this x w).news = w.news ∧
    (acquire this ctor w).2.deletes = w.deletes ∧
    (release this x w).deletes = w.deletes ∧
    (∀ a, (w.mem a).isSome → ((acquire this ctor w).2.mem a).isSome) ∧
    (release this x w).mem = w.mem ∧
    (∃ t, constructedBy this c.world ++ t = constructedBy this (c.run this ops).world) ∧
    (c.run this ops).world.deletes = c.world.deletes := by
  refine ⟨?_, ?_, ?_, ?_, rfl, acquire_deletes this ctor w, rfl,
    (acquire_grows this ctor w).2, rfl,
    constructedBy_grows this _ _ (Client.run_news this ops c), Client.run_deletes this ops c⟩
  · rcases acquire_cases this ctor w with ⟨e, hp, hc, he⟩ | ⟨v, hp, hc, he⟩ | ⟨l, y, hp, he⟩
    · rw [he, hc]
      constructor
      · intro h; exact absurd rfl h
      · rintro ⟨-, v, hv⟩; cases hv
    · rw [he]
      constructor
      · intro _; exact ⟨hp, v, hc⟩
      · intro _ h
        have := congrArg List.length h
        simp at this
    · rw [he]
      constructor
      · intro h; exact absurd rfl h
      · rintro ⟨hnil, -⟩
        rw [hnil] at hp
        simp at hp
  · intro v hp hc
    rw [hc, acquire_of_pool_eq_nil_ok this v w hp]
    refine ⟨rfl, ?_, ?_, rfl⟩
    · simp [constructedBy, List.filter_append]
    · simp
  · intro e hp hc
    rw [hc, acquire_of_pool_eq_nil_error this e w hp]
    exact ⟨rfl, rfl, rfl⟩
  · intro hne
    have hl := (List.dropLast_append_getLast hne).symm
    rw [acquire_of_pool_eq_append this ctor w _ _ hl]

/-- C11, at concrete inputs: on an empty pool a constructor that yields 7 gives
one new instance, at address 0, holding 7; on a pool with an idle instance
nothing is constructed; on an empty pool a constructor that throws makes
`acquire()` throw the same exception. -/
theorem C11_instance_lifecycle_witness :
    (acquire 0 (.ok 7 : Except String Nat) World.start).2.news = [(0, 0)] ∧
    (acquire 0 (.ok 7 : Except String Nat) World.start).2.mem 0 = some 7 ∧
    (acquire 0 (.ok 7 : Except String Nat) (release 0 5 World.start)).2.news = [] ∧
    (acquire 0 (.error "boom" : Except String Nat) World.start).1 = .error "boom" :=
  ⟨((C11_instance_lifecycle 0 (.ok 7 : Except String Nat) World.start 0
      (Client.fresh World.start) []).2.1 7 rfl rfl).1,
    ((C11_instance_lifecycle 0 (.ok 7 : Except String Nat) World.start 0
      (Client.fresh World.start) []).2.1 7 rfl rfl).2.2.1,
    (C11_instance_lifecycle 0 (.ok 7 : Except String Nat) (release 0 5 World.start) 0
      (Client.fresh World.start) []).2.2.2.1 (by simp [release, World.start]),
    ((C11_instance_lifecycle 0 (.error "boom" : Except String Nat) World.start 0
      (Client.fresh World.start) []).2.2.1 "boom" rfl rfl).1⟩

/-- C12 (teardown frame).  For every state `w` and pool `this`, the destructor
passes to `delete` exactly the idle collection of that moment, entry by entry
and in order; every idle instance is gone from the free store afterwards; an
instance that is not in the idle collection is neither deleted nor changed;
and the destructor constructs nothing and leaves the vector of every pool as
it is.  In particular, for calling code that started on a freshly constructed
pool, no instance wrapped by a handle it holds is idle, so none of them is
deleted or changed. -/
theorem C12_teardown_frame (this : PoolRef) (w w0 : World T) (ops : List (Op ε T)) :
    (destroy this w).deletes = w.deletes ++ w.pool_ this ∧
    (∀ a ∈ w.pool_ this, (destroy this w).mem a = none) ∧
    (∀ a, a ∉ w.pool_ this → (destroy this w).mem a = w.mem a) ∧
    (destroy this w).news = w.news ∧
    (destroy this w).pool_ = w.pool_ ∧
    (Fresh this w0 → ∀ a ∈ ((Client.fresh w0).run this ops).checkedOut,
      a ∉ ((Client.fresh w0).run this ops).world.pool_ this ∧
      (destroy this ((Client.fresh w0).run this ops).world).mem a =
        ((Client.fresh w0).run this ops).world.mem a) := by
  obtain ⟨h1, h2, h3, h4⟩ := foldl_opDelete (w.pool_ this) w
  refine ⟨h1, ?_, ?_, h3, h2, ?_⟩
  · intro a ha
    simp only [destroy, h4, if_pos ha]
  · intro a ha
    simp only [destroy, h4, if_neg ha]
  · intro hf a ha
    have hinv := Client.inv_run this ops _ (Client.inv_fresh this w0 hf)
    generalize (Client.fresh w0).run this ops = c at hinv ha
    have hnd : (c.world.pool_ this ++ c.checkedOut).Nodup :=
      hinv.perm.nodup_iff.mpr hinv.nodup
    have hnot : a ∉ c.world.pool_ this := fun hp => (List.nodup_append.mp hnd).2.2 hp ha
    refine ⟨hnot, ?_⟩
    simp only [destroy, (foldl_opDelete (c.world.pool_ this) c.world).2.2.2, if_neg hnot]

/-- C12, at a concrete run: instance 0 is idle and instance 1 is checked out
when the pool is destroyed; only 0 is deleted and 1 keeps its value. -/
theorem C12_teardown_frame_witness :
    Fresh 0 (World.start : World Nat) ∧
    (destroy 0 ((Client.fresh (World.start : World Nat)).run 0
      ([.acquire (.ok 7), .acquire (.ok 7), .drop 0] : List (Op String Nat))).world).deletes
      = [0] ∧
    (destroy 0 ((Client.fresh (World.start : World Nat)).run 0
      ([.acquire (.ok 7), .acquire (.ok 7), .drop 0] : List (Op String Nat))).world).mem 1
      = some 7 :=
  ⟨⟨rfl, rfl⟩,
    (C12_teardown_frame 0 ((Client.fresh (World.start : World Nat)).run 0
      ([.acquire (.ok 7), .acquire (.ok 7), .drop 0] : List (Op String Nat))).world
      (World.start : World Nat) ([] : List (Op String Nat))).1.trans rfl,
    ((C12_teardown_frame 0 (World.start : World Nat) (World.start : World Nat)
      ([.acquire (.ok 7), .acquire (.ok 7), .drop 0] : List (Op String Nat))).2.2.2.2.2
      ⟨rfl, rfl⟩ 1 (by decide)).2.trans (by
        simp [Client.run, Client.step, Client.fresh, acquire, opNew, World.start, Ptr.destruct,
          PoolDeleter.call, release, Function.update])⟩

/-- C13 (release appends).  For every state `w` with idle collection `L` of the
pool `this` and every instance `x`, after `release(x)` the idle collection is
`L` followed by `x`: it is one entry longer, its first `L.length` entries are
those of `L` in their order, and its last entry is `x`.  The vectors of the
other pools and the rest of the state are unchanged. -/
theorem C13_release_appends (this : PoolRef) (w : World T) (x : Addr) :
    (release this x w).pool_ this = w.pool_ this ++ [x] ∧
    ((release this x w).pool_ this).length = (w.pool_ this).length + 1 ∧
    ((release this x w).pool_ this).take (w.pool_ this).length = w.pool_ this ∧
    (∀ i, i < (w.pool_ this).length →
      ((release this x w).pool_ this)[i]? = (w.pool_ this)[i]?) ∧
    ((release this x w).pool_ this).getLast? = some x ∧
    (∀ q, q ≠ this → (release this x w).pool_ q = w.pool_ q) ∧
    (release this x w).mem = w.mem ∧
    (release this x w).news = w.news ∧
    (release this x w).deletes = w.deletes ∧
    (release this x w).brk = w.brk := by
  refine ⟨release_pool_self this x w, ?_, ?_, ?_, ?_, ?_, rfl, rfl, rfl, rfl⟩
  · simp
  · simp
  · intro i hi
    rw [release_pool_self, List.getElem?_append_left hi]
  · simp
  · intro q hq
    exact release_pool_other hq x w

/-- C13, at a concrete input: releasing 9 into the pool at 0 that holds
`[5, 6]`, with the pool at 1 holding `[4]`. -/
theorem C13_release_appends_witness :
    (release 0 9 (release 1 4 (release 0 6 (release 0 5 (World.start : World Nat))))).pool_ 0
      = [5, 6, 9] ∧
    (release 0 9 (release 1 4 (release 0 6 (release 0 5 (World.start : World Nat))))).pool_ 1
      = [4] :=
  ⟨(C13_release_appends 0
      (release 1 4 (release 0 6 (release 0 5 (World.start : World Nat)))) 9).1.trans rfl,
    ((C13_release_appends 0
      (release 1 4 (release 0 6 (release 0 5 (World.start : World Nat)))) 9).2.2.2.2.2.1
      1 (by decide)).trans rfl⟩

/-- C14 (handle is bound to the issuing pool).  Let `P` and `Q` be distinct
pools.  A handle that `acquire()` on `P` returns has `P` as the pool of its
deleter, in the branch that reuses an idle instance and in the branch that
constructs one alike; `acquire()` on `P` does not touch the idle collection of
`Q`; and dropping the handle in any later state appends its instance to the
idle collection of `P` and leaves the idle collection of `Q` unchanged. -/
theorem C14_handle_bound_to_pool (P Q : PoolRef) (hPQ : P ≠ Q) (ctor : Except ε T)
    (w : World T) (h : Ptr) (hacq : (acquire P ctor w).1 = .ok h) (w2 : World T) :
    h.deleter.pool = P ∧
    (∀ l x, w.pool_ P = l ++ [x] → (acquire P ctor w).1 = .ok ⟨some x, ⟨P⟩⟩) ∧
    (∀ v, w.pool_ P = [] → ctor = .ok v → (acquire P ctor w).1 = .ok ⟨some w.brk, ⟨P⟩⟩) ∧
    (acquire P ctor w).2.pool_ Q = w.pool_ Q ∧
    (∃ x, h.ptr = some x ∧
      (h.destruct w2).pool_ P = w2.pool_ P ++ [x] ∧
      (h.destruct w2).pool_ Q = w2.pool_ Q) := by
  obtain ⟨a, rfl⟩ := acquire_ok_shape P ctor w h hacq
  refine ⟨rfl, ?_, ?_, ?_, a, rfl, ?_, ?_⟩
  · intro l x hl
    rw [acquire_of_pool_eq_append P ctor w l x hl]
  · intro v hp hc
    rw [hc, acquire_of_pool_eq_nil_ok P v w hp]
  · rcases acquire_cases P ctor w with ⟨e, -, -, he⟩ | ⟨v, -, -, he⟩ | ⟨l, x, -, he⟩
    · rw [he]
    · rw [he]
    · rw [he]
      exact Function.update_noteq (Ne.symm hPQ) _ _
  · simp [Ptr.destruct, PoolDeleter.call]
  · simp only [Ptr.destruct, PoolDeleter.call]
    exact release_pool_other (Ne.symm hPQ) a w2

/-- C14, at a concrete input: pools 0 and 1; the handle from pool 0 is dropped
while pool 1 holds `[4]`. -/
theorem C14_handle_bound_to_pool_witness :
    (0 : PoolRef) ≠ 1 ∧
    (acquire 0 (.ok 7 : Except String Nat) World.start).1 = .ok ⟨some 0, ⟨0⟩⟩ ∧
    ∃ x, (⟨some 0, ⟨0⟩⟩ : Ptr).ptr = some x ∧
      (Ptr.destruct ⟨some 0, ⟨0⟩⟩ (release 1 4 (World.start : World Nat))).pool_ 0
        = (release 1 4 (World.start : World Nat)).pool_ 0 ++ [x] ∧
      (Ptr.destruct ⟨some 0, ⟨0⟩⟩ (release 1 4 (World.start : World Nat))).pool_ 1
        = (release 1 4 (World.start : World Nat)).pool_ 1 :=
  ⟨by decide, rfl,
    (C14_handle_bound_to_pool 0 1 (by decide) (.ok 7 : Except String Nat) World.start
      ⟨some 0, ⟨0⟩⟩ rfl (release 1 4 (World.start : World Nat))).2.2.2.2⟩

/-- C16 (release performs no membership or ownership check).  For every state
`w`, pool `this` and instance `x`, whether `x` is already idle, checked out, or
was never constructed by this pool: two calls of `release(x)` in a row put `x`
into the idle collection twice, so that collection has a repeated entry; the
next two calls of `acquire()` both return a handle wrapping `x`, whatever
`T()` would do, and construct nothing; the state is then again `w` while two
handles wrap the same instance.  One call of `release(x)` for an `x` that is
already idle breaks the no-duplicates property as well. -/
theorem C16_release_unchecked (this : PoolRef) (w : World T) (x : Addr)
    (c1 c2 : Except ε T) :
    (release this x (release this x w)).pool_ this = w.pool_ this ++ [x, x] ∧
    ¬ ((release this x (release this x w)).pool_ this).Nodup ∧
    (acquireMany this [c1, c2] (release this x (release this x w))).1 =
      [.ok ⟨some x, ⟨this⟩⟩, .ok ⟨some x, ⟨this⟩⟩] ∧
    handedOut (acquireMany this [c1, c2] (release this x (release this x w))).1 = [x, x] ∧
    (acquireMany this [c1, c2] (release this x (release this x w))).2.news = w.news ∧
    (acquireMany this [c1, c2] (release this x (release this x w))).2 = w ∧
    (x ∈ w.pool_ this → ¬ ((release this x w).pool_ this).Nodup) := by
  have hacq : acquireMany this [c1, c2] (release this x (release this x w)) =
      ([.ok ⟨some x, ⟨this⟩⟩, .ok ⟨some x, ⟨this⟩⟩], w) := by
    simp only [acquireMany, acquire_release]
  rw [hacq]
  refine ⟨by simp, ?_, rfl, rfl, rfl, rfl, ?_⟩
  · simp [List.nodup_append]
  · intro hx
    simp [List.nodup_append, hx]

/-- C16, at a concrete input: instance 5 is idle in the pool at 0 and is
released once more. -/
theorem C16_release_unchecked_witness :
    (5 : Addr) ∈ (release 0 5 (World.start : World Nat)).pool_ 0 ∧
    ¬ ((release 0 5 (release 0 5 (World.start : World Nat))).pool_ 0).Nodup :=
  ⟨by simp [release, World.start],
    (C16_release_unchecked 0 (release 0 5 (World.start : World Nat)) 5
      (.ok 0 : Except String Nat) (.ok 0)).2.2.2.2.2.2 (by simp [release, World.start])⟩

/-! ## Constructions against demand -/

/-- The peak of a run is at least what is checked out at its start. -/
theorem Client.le_peak (this : PoolRef) (c : Client T) (ops : List (Op ε T)) :
    c.checkedOut.length ≤ Client.peak this c ops := by
  cases ops with
  | nil => exact Nat.le_refl _
  | cons op ops => exact Nat.le_max_left _ _

/-- One operation either constructs nothing, or constructs one instance and
then every instance the pool constructed is checked out. -/
theorem Client.step_constructed (this : PoolRef) (c : Client T) (op : Op ε T)
    (hc : Client.Inv this c) :
    (constructedBy this (c.step this op).world).length
        = (constructedBy this c.world).length ∨
    ((constructedBy this (c.step this op).world).length
        = (constructedBy this c.world).length + 1 ∧
      (c.step this op).checkedOut.length = (constructedBy this c.world).length + 1) := by
  cases op with
  | acquire ctor =>
    rcases acquire_cases this ctor c.world with ⟨e, -, -, he⟩ | ⟨v, hp, -, he⟩ | ⟨l, x, -, he⟩
    · left
      simp only [Client.step, he]
    · right
      have hlen := hc.perm.length_eq
      rw [hp] at hlen
      simp only [List.nil_append] at hlen
      simp only [Client.step, he]
      constructor
      · simp [constructedBy, List.filter_append]
      · simp only [Client.checkedOut, List.filterMap_append, List.filterMap_cons,
          List.filterMap_nil, List.length_append, List.length_singleton]
        simp only [Client.checkedOut] at hlen
        omega
    · left
      simp only [Client.step, he]
      rfl
  | drop i =>
    left
    simp only [Client.step]
    split
    · rfl
    · simp only [constructedBy, destruct_news]

/-- Along a run that keeps the invariant, the number of instances constructed
at the end is the larger of the number constructed at the start and the peak
of the run. -/
theorem Client.constructed_eq_peak (this : PoolRef) (ops : List (Op ε T)) :
    ∀ c : Client T, Client.Inv this c →
      (constructedBy this (c.run this ops).world).length =
        max (constructedBy this c.world).length (Client.peak this c ops) := by
  induction ops with
  | nil =>
    intro c hc
    have hlen := hc.perm.length_eq
    rw [List.length_append] at hlen
    simp only [Client.run, List.foldl_nil, Client.peak]
    omega
  | cons op ops ih =>
    intro c hc
    have hlen := hc.perm.length_eq
    rw [List.length_append] at hlen
    have hih := ih (c.step this op) (Client.inv_step this c op hc)
    have hpk := Client.le_peak this (c.step this op) ops
    have hrun : c.run this (op :: ops) = (c.step this op).run this ops := rfl
    rw [hrun, hih]
    simp only [Client.peak]
    rcases Client.step_constructed this c op hc with h | ⟨h1, h2⟩
    · omega
    · omega

/-- C15 (constructions equal peak demand).  Start on a freshly constructed
pool and run any sequence of `acquire()` calls and handle destructions.  Then
the number of instances the pool has constructed equals the largest number of
instances that were checked out at one time during the run; and whenever an
idle instance is available, `acquire()` constructs nothing. -/
theorem C15_constructions_eq_peak (this : PoolRef) (w0 : World T) (hf : Fresh this w0)
    (ops : List (Op ε T)) (ctor : Except ε T) :
    (constructedBy this ((Client.fresh w0).run this ops).world).length =
      Client.peak this (Client.fresh w0) ops ∧
    (((Client.fresh w0).run this ops).world.pool_ this ≠ [] →
      (acquire this ctor ((Client.fresh w0).run this ops).world).2.news =
        ((Client.fresh w0).run this ops).world.news) := by
  constructor
  · rw [Client.constructed_eq_peak this ops _ (Client.inv_fresh this w0 hf)]
    have h0 : (constructedBy this (Client.fresh w0).world).length = 0 := by
      simp [Client.fresh, hf.2]
    rw [h0]
    exact Nat.zero_max _
  · intro hne
    have hl := (List.dropLast_append_getLast hne).symm
    rw [acquire_of_pool_eq_append this ctor _ _ _ hl]

/-- C15, at a concrete run: two handles are held at one time, both are dropped,
and two more calls of `acquire()` reuse the idle instances; two instances were
constructed in all. -/
theorem C15_constructions_eq_peak_witness :
    Fresh 0 (World.start : World Nat) ∧
    Client.peak 0 (Client.fresh (World.start : World Nat))
      ([.acquire (.ok 7), .acquire (.ok 7), .drop 0, .drop 0, .acquire (.error "boom"),
        .acquire (.ok 7)] : List (Op String Nat)) = 2 ∧
    (constructedBy 0 ((Client.fresh (World.start : World Nat)).run 0
      ([.acquire (.ok 7), .acquire (.ok 7), .drop 0, .drop 0, .acquire (.error "boom"),
        .acquire (.ok 7)] : List (Op String Nat))).world).length = 2 :=
  ⟨⟨rfl, rfl⟩, rfl,
    ((C15_constructions_eq_peak 0 (World.start : World Nat) ⟨rfl, rfl⟩
      ([.acquire (.ok 7), .acquire (.ok 7), .drop 0, .drop 0, .acquire (.error "boom"),
        .acquire (.ok 7)] : List (Op String Nat)) (.ok 7)).1).trans rfl⟩

end ObjectPool
